import Mathlib

/-!
Shallow embedding of the record-cleaning core of `bibgulp` (`bibgulp.py`).

The program normalizes a parsed BibTeX record (a mapping from field names to
string values) and renders it as a BibTeX text block.  We embed the record as
an insertion-ordered association list (Python dicts preserve insertion order,
assignment to an existing key keeps its position, and new keys are appended),
and translate each function of the source file (`fix_pages`, `get_first_word`,
`fix_title`, `print_field`, `clean_record`) into an executable Lean definition.

Scope notes, stated once here:
* Character classes (`\d`, `islower`, `str.strip`, ...) are modelled at ASCII
  scope, which is the scope all theorems below are stated and evaluated in.
* The two external collaborators invoked by `clean_record`
  (`bibtexparser.customization.author`'s `getnames`, and
  `bibtexparser.latexenc.string_to_latex`) are parameters of the embedding;
  `string_to_latex` is the identity on ASCII strings, and concrete runs below
  instantiate the parameters accordingly.
* Python's `textwrap.TextWrapper` (used by `print_field` with `width=78`,
  `initial_indent="  "`, `subsequent_indent="    "` and all other options at
  their defaults) is embedded in full: tab expansion, whitespace munging, the
  `wordsep_re` chunker (including its hyphenation rules), greedy line filling,
  `drop_whitespace`, and `break_long_words`/`break_on_hyphens` handling.
-/

set_option autoImplicit false
set_option maxRecDepth 8192

/-- Python string-whitespace characters (`string.whitespace`, ASCII):
space, tab, newline, carriage return, vertical tab, form feed. -/
def pyWS (c : Char) : Bool :=
  c = ' ' || c = '\t' || c = '\n' || c = '\r' || c = '\x0b' || c = '\x0c'

/-- Python `str.strip()` on a character list. -/
def pyStripL (cs : List Char) : List Char :=
  ((cs.dropWhile pyWS).reverse.dropWhile pyWS).reverse

/-- Python `str.strip()`. -/
def pyStrip (s : String) : String := ⟨pyStripL s.data⟩

/-- Python `str.lower()` (ASCII scope). -/
def pyLower (s : String) : String := ⟨s.data.map Char.toLower⟩

/-- Substring test on character lists (Python `needle in haystack`). -/
def containsSubL (pat : List Char) : List Char → Bool
  | [] => pat.isEmpty
  | c :: cs => pat.isPrefixOf (c :: cs) || containsSubL pat cs

/-- Python `str.replace(c, repl)` for a single-character pattern. -/
def replaceCharL (c : Char) (repl : List Char) : List Char → List Char
  | [] => []
  | a :: rest => (if a = c then repl else [a]) ++ replaceCharL c repl rest

/-- Python `str.replace(pat, repl)` for a pattern of length at least one:
scan left to right, replacing non-overlapping occurrences.  Fuel-indexed so
that it evaluates by kernel reduction; every step consumes at least one
character, so `length` fuel is always enough. -/
def replaceSubGo (p0 : Char) (ps : List Char) (repl : List Char) :
    Nat → List Char → List Char
  | _, [] => []
  | 0, cs => cs
  | fuel + 1, c :: rest =>
    if (p0 :: ps).isPrefixOf (c :: rest) then
      repl ++ replaceSubGo p0 ps repl fuel (rest.drop ps.length)
    else
      c :: replaceSubGo p0 ps repl fuel rest

def replaceSubL (p0 : Char) (ps : List Char) (repl : List Char)
    (cs : List Char) : List Char :=
  replaceSubGo p0 ps repl cs.length cs

/-- Python `str.split(sep)` for a single-character separator (keeps empty
pieces, like Python). -/
def splitOnCharL (sep : Char) : List Char → List (List Char)
  | [] => [[]]
  | c :: rest =>
    let r := splitOnCharL sep rest
    if c = sep then [] :: r else (c :: r.headD []) :: r.tail

/-- Python `str.split(sep)` for a separator of length at least one,
fuel-indexed (kernel-reducible; `length` fuel is always enough). -/
def splitOnListGo (s0 : Char) (ss : List Char) : Nat → List Char → List (List Char)
  | _, [] => [[]]
  | 0, cs => [cs]
  | fuel + 1, c :: rest =>
    if (s0 :: ss).isPrefixOf (c :: rest) then
      [] :: splitOnListGo s0 ss fuel (rest.drop ss.length)
    else
      match splitOnListGo s0 ss fuel rest with
      | r :: rs => (c :: r) :: rs
      | [] => [[c]]

def splitOnListL (s0 : Char) (ss : List Char) (cs : List Char) : List (List Char) :=
  splitOnListGo s0 ss cs.length cs

/-- Python whitespace `str.split()` (no separator): the maximal non-whitespace
runs, in order (empty pieces never occur). -/
def splitWhiteL : List Char → List (List Char)
  | [] => []
  | c :: rest =>
    if pyWS c then splitWhiteL rest
    else
      match rest with
      | [] => [[c]]
      | d :: _ =>
        if pyWS d then [c] :: splitWhiteL rest
        else
          match splitWhiteL rest with
          | w :: ws => (c :: w) :: ws
          | [] => [[c]]

def pySplitWhite (s : String) : List String :=
  (splitWhiteL s.data).map (fun l => (⟨l⟩ : String))

/-- A record: insertion-ordered association list from field name to value. -/
abbrev BibRec := List (String × String)

/-- Python `record[k]`, as an `Option` (a missing key raises `KeyError`). -/
def getVal? (r : BibRec) (k : String) : Option String :=
  match r with
  | [] => none
  | (k0, v) :: rest => if k0 = k then some v else getVal? rest k

/-- Python `k in record`. -/
def hasKey (r : BibRec) (k : String) : Bool := (getVal? r k).isSome

/-- Python `record[k] = v`: replace in place if the key exists, else append. -/
def setVal (r : BibRec) (k v : String) : BibRec :=
  match r with
  | [] => [(k, v)]
  | (k0, v0) :: rest => if k0 = k then (k0, v) :: rest else (k0, v0) :: setVal rest k v

/-- Python `del record[k]` (first occurrence). -/
def delKey (r : BibRec) (k : String) : BibRec :=
  match r with
  | [] => []
  | (k0, v0) :: rest => if k0 = k then rest else (k0, v0) :: delKey rest k

/-! ### Page-range normalization (`fix_pages`, bibgulp.py lines 75-81) -/

theorem lengthDropWhileLe (p : Char → Bool) (l : List Char) :
    (l.dropWhile p).length ≤ l.length := by
  induction l with
  | nil => simp [List.dropWhile]
  | cons c rest ih =>
    simp only [List.dropWhile]
    cases p c
    · simp
    · simp
      omega

/-- Negation of `Char.isDigit`, the class `\D` of the pages regex (ASCII scope). -/
def notDig (c : Char) : Bool := !c.isDigit

/-- The maximal digit runs of a string, in order.  This is the specification-side
notion used to state what `re.search(r"(\d+)\D+(\d+)", p0)` captures. -/
def digitRuns : List Char → List (List Char)
  | [] => []
  | c :: rest =>
    let rs := digitRuns rest
    if c.isDigit then
      match rest with
      | [] => [[c]]
      | d :: _ => if d.isDigit then (c :: rs.headD []) :: rs.tail else [c] :: rs
    else rs

/-- The groups of the leftmost match of `(\d+)\D+(\d+)`: skip non-digits, take the
first maximal digit run, skip the non-digit separator, take the second maximal
digit run.  `none` when there is no match. -/
def twoDigitRuns (cs : List Char) : Option (List Char × List Char) :=
  let s1 := cs.dropWhile notDig
  let run1 := s1.takeWhile Char.isDigit
  let s2 := (s1.dropWhile Char.isDigit).dropWhile notDig
  let run2 := s2.takeWhile Char.isDigit
  if run1 ≠ [] ∧ run2 ≠ [] then some (run1, run2) else none

/-- `fix_pages`: if a `pages` field exists and the regex `(\d+)\D+(\d+)` matches,
rewrite the field as `"<group1>--<group2>"`; otherwise leave the record alone. -/
def fix_pages (r : BibRec) : BibRec :=
  match getVal? r "pages" with
  | none => r
  | some p0 =>
    match twoDigitRuns p0.data with
    | some (g1, g2) => setVal r "pages" ⟨g1 ++ '-' :: '-' :: g2⟩
    | none => r

/-! ### Citation-key first word (`get_first_word`, bibgulp.py lines 63-72) -/

/-- The stop words of `bibgulp.py` line 55. -/
def stop_words : List String :=
  ["a", "an", "the", "on", "is", "it", "at", "of", "in", "as", "to", "are",
   "there", "el", "la", "has"]

/-- Python `re.match(r"\d", word)` as a boolean: the word starts with a digit. -/
def startsDigit (w : String) : Bool :=
  match w.data with
  | [] => false
  | c :: _ => c.isDigit

/-- The loop of `get_first_word`: return the first word that is not a stop word
and does not start with a digit; `"xxx"` when no word qualifies. -/
def firstGoodWord : List String → String
  | [] => "xxx"
  | w :: ws =>
    if !stop_words.contains w && !startsDigit w then w else firstGoodWord ws

/-- `get_first_word`: `none` when the record has no title (the Python function
returns `None`); otherwise scan the lowercased whitespace-split title words. -/
def get_first_word (r : BibRec) : Option String :=
  match getVal? r "title" with
  | none => none
  | some title => some (firstGoodWord ((pySplitWhite title).map pyLower))

/-- Python `"%s" % x` applied to the result of `get_first_word`: `None` is
interpolated as the literal string `"None"`. -/
def pyFormatOpt : Option String → String
  | none => "None"
  | some s => s

/-- The first-word component of the generated citation key, exactly as it is
interpolated into the key at bibgulp.py line 153. -/
def first_word_component (r : BibRec) : String := pyFormatOpt (get_first_word r)

/-! ### Title case protection (`fix_title`, bibgulp.py lines 84-101) -/

/-- The journals whose titles are exempt from case protection (line 60). -/
def capitalizers : List String :=
  ["Science", "Geology", "Surveys in Geophysics", "Radiocarbon"]

/-- Python `str.islower()` at ASCII scope: at least one cased (alphabetic)
character, and no uppercase character. -/
def pyIsLowerStr (cs : List Char) : Bool :=
  cs.any (fun c => c.isAlpha) && cs.all (fun c => !c.isUpper)

/-- The per-word transformation of the `fix_title` loop body (lines 91-100),
applied to every title word except the first. -/
def fixWord (w : String) : String :=
  match w.data with
  | [] => w
  | c :: rest =>
    if rest ≠ [] && c.isUpper && pyIsLowerStr rest then
      ⟨'\x7b' :: c :: '\x7d' :: rest⟩
    else if pyIsLowerStr (c :: rest) || !c.isAlpha then
      w
    else
      ⟨'\x7b' :: (c :: rest) ++ ['\x7d']⟩

/-- The loop of `fix_title`: `for i in range(1, len(words))` rewrites every word
except the first. -/
def fixWords : List String → List String
  | [] => []
  | w :: ws => w :: ws.map fixWord

/-- Python `str.split(" ")` on a string value (single-space separator, keeping
empty pieces). -/
def pySplitSpace (s : String) : List String :=
  (splitOnCharL ' ' s.data).map (fun l => (⟨l⟩ : String))

/-- `fix_title`: no-op without a title or when the journal is a capitalizer;
otherwise split the title on single spaces, protect each word after the first,
and join with single spaces. -/
def fix_title (r : BibRec) : BibRec :=
  match getVal? r "title" with
  | none => r
  | some t =>
    let exempt :=
      match getVal? r "journal" with
      | some j => capitalizers.contains j
      | none => false
    if exempt then r
    else setVal r "title" (String.intercalate " " (fixWords (pySplitSpace t)))

/-! ### Line wrapping (`print_field`, bibgulp.py lines 104-110)

`print_field` renders `"<key> = {<value>},"` and wraps it with Python's
`textwrap.TextWrapper(width=78, initial_indent="  ", subsequent_indent="    ")`.
All other wrapper options keep their defaults: `expand_tabs=True`,
`replace_whitespace=True`, `drop_whitespace=True`, `break_long_words=True`,
`break_on_hyphens=True`, `fix_sentence_endings=False`, `max_lines=None`.
The definitions below embed CPython's `textwrap` algorithm at those settings:
`_munge_whitespace`, the `wordsep_re` chunk splitter (with its hyphenated-word
and em-dash rules, ASCII scope for `\w`), `_handle_long_word`, and
`_wrap_chunks`. -/

/-- Python `str.expandtabs(8)`: tabs advance to the next multiple of eight;
newline and carriage return reset the column. -/
def expandTabsGo : Nat → List Char → List Char
  | _, [] => []
  | col, c :: rest =>
    if c = '\t' then
      List.replicate (8 - col % 8) ' ' ++ expandTabsGo (col + (8 - col % 8)) rest
    else if c = '\n' || c = '\r' then c :: expandTabsGo 0 rest
    else c :: expandTabsGo (col + 1) rest

/-- `TextWrapper._munge_whitespace`: expand tabs, then turn every whitespace
character into a plain space. -/
def munge (cs : List Char) : List Char :=
  (expandTabsGo 0 cs).map (fun c => if pyWS c then ' ' else c)

/-- Regex `\w` (ASCII scope). -/
def isWordCh (c : Char) : Bool := c.isAlphanum || c = '_'

/-- Regex `[^\d\W]`: a word character that is not a digit (ASCII scope). -/
def isLetterCh (c : Char) : Bool := c.isAlpha || c = '_'

/-- The `wordsep_re` em-dash lookbehind class: word characters and a few
punctuation characters. -/
def isEmdPre (c : Char) : Bool :=
  isWordCh c || c = '!' || c = '\x22' || c = '\x27' || c = '&' || c = '.' ||
    c = ',' || c = '?'

/-- The lookahead of the hyphenated-word rule, evaluated just after the hyphen:
a letter, an optional hyphen, and a letter. -/
def hyphAhead : List Char → Bool
  | c0 :: c1 :: rest2 =>
    isLetterCh c0 &&
      (isLetterCh c1 ||
        (c1 = '-' && (match rest2 with | c2 :: _ => isLetterCh c2 | [] => false)))
  | _ => false

/-- The lookbehind of the hyphenated-word rule.  The argument is the already
consumed text in reverse order, starting with the hyphen itself: accept
`letter letter -` or `letter - letter -` endings. -/
def hyphBehind : List Char → Bool
  | _ :: a :: b :: rest =>
    (isLetterCh a && isLetterCh b) ||
      (isLetterCh a && b = '-' &&
        (match rest with | c :: _ => isLetterCh c | [] => false))
  | _ => false

/-- The lookahead `-{2,}\w`: a run of at least two hyphens followed by a word
character. -/
def emdAhead (rest : List Char) : Bool :=
  decide (2 ≤ (rest.takeWhile (fun c => c = '-')).length) &&
    (match rest.dropWhile (fun c => c = '-') with
     | c :: _ => isWordCh c
     | [] => false)

/-- The word alternative of `wordsep_re`: a lazily extended run of
non-whitespace characters, ended by the hyphenated-word rule, by whitespace or
end of input, or by the em-dash lookahead.  `prevRev` is the text before the
word in reverse order (for the lookbehinds); `accRev` the consumed word so far
in reverse order.  Returns the chunk and the remaining input. -/
def wordChunkGo (prevRev : List Char) : List Char → List Char → List Char × List Char
  | accRev, [] => (accRev.reverse, [])
  | accRev, c :: rest =>
    if pyWS c then (accRev.reverse, c :: rest)
    else if c = '-' && hyphBehind ('-' :: (accRev ++ prevRev)) && hyphAhead rest then
      (('-' :: accRev).reverse, rest)
    else if (match accRev with | a :: _ => isEmdPre a | [] => false) &&
        emdAhead (c :: rest) then
      (accRev.reverse, c :: rest)
    else wordChunkGo prevRev (c :: accRev) rest

/-- `TextWrapper._split` via `wordsep_re`: tile the munged text into chunks —
whitespace runs, em-dash runs (when preceded by a word-ish character and
followed by a word character), and words.  Fuel-indexed; every step consumes at
least one character, so `length + 1` fuel is always enough. -/
def chunksGo : Nat → List Char → List Char → List (List Char)
  | 0, _, _ => []
  | _ + 1, _, [] => []
  | fuel + 1, prevRev, c :: rest =>
    if pyWS c then
      let run := c :: rest.takeWhile pyWS
      run :: chunksGo fuel (run.reverse ++ prevRev) (rest.dropWhile pyWS)
    else if c = '-' && (match prevRev with | p :: _ => isEmdPre p | [] => false) &&
        emdAhead (c :: rest) then
      let run := c :: rest.takeWhile (fun a => a = '-')
      run :: chunksGo fuel (run.reverse ++ prevRev) (rest.dropWhile (fun a => a = '-'))
    else
      let wc := wordChunkGo prevRev [c] rest
      wc.1 :: chunksGo fuel (wc.1.reverse ++ prevRev) wc.2

/-- Python `chunk.strip() == ''`. -/
def chunkIsWS (ch : List Char) : Bool := (pyStripL ch).isEmpty

/-- Python `chunk.rfind('-', 0, bound)`: the rightmost hyphen position below
`bound`, if any. -/
def rfindHyphenGo : List Char → Nat → Option Nat → Option Nat
  | [], _, best => best
  | c :: rest, i, best =>
    rfindHyphenGo rest (i + 1) (if c = '-' then some i else best)

def rfindHyphen (cs : List Char) (bound : Nat) : Option Nat :=
  rfindHyphenGo (cs.take bound) 0 none

/-- `TextWrapper._handle_long_word` with `break_long_words=True` and
`break_on_hyphens=True`: split the chunk at `space_left`, or just after the
last hyphen before `space_left` when the part before that hyphen contains a
non-hyphen character. -/
def handleLong (chunk : List Char) (spaceLeft : Nat) : List Char × List Char :=
  let endIdx :=
    if spaceLeft < chunk.length then
      match rfindHyphen chunk spaceLeft with
      | some h =>
        if 0 < h && (chunk.take h).any (fun c => c ≠ '-') then h + 1 else spaceLeft
      | none => spaceLeft
    else spaceLeft
  (chunk.take endIdx, chunk.drop endIdx)

/-- The greedy inner loop of `_wrap_chunks`: move chunks onto the current line
while they fit.  Returns the line chunks, their total length, and the rest. -/
def takeFill (width : Nat) : Nat → List (List Char) →
    List (List Char) × Nat × List (List Char)
  | curLen, [] => ([], curLen, [])
  | curLen, ch :: rest =>
    if curLen + ch.length ≤ width then
      let res := takeFill width (curLen + ch.length) rest
      (ch :: res.1, res.2.1, res.2.2)
    else ([], curLen, ch :: rest)

/-- `TextWrapper._wrap_chunks` at the `print_field` settings, fuel-indexed.
Each outer iteration: pick the indent, drop a leading whitespace chunk on
continuation lines, fill greedily, break an over-long head chunk, drop a
trailing whitespace chunk, and emit the line if non-empty. -/
def wrapLoop (width0 : Nat) (ind1 ind2 : List Char) :
    Nat → List (List Char) → List (List Char) → List (List Char)
  | 0, _, lines => lines.reverse
  | _ + 1, [], lines => lines.reverse
  | fuel + 1, ch0 :: chrest, lines =>
    let indent := if lines.isEmpty then ind1 else ind2
    let width := width0 - indent.length
    let chunks1 := if !lines.isEmpty && chunkIsWS ch0 then chrest else ch0 :: chrest
    let fill := takeFill width 0 chunks1
    let cur1 := fill.1
    let len1 := fill.2.1
    let rem1 := fill.2.2
    let step :=
      match rem1 with
      | ch :: rest =>
        if width < ch.length then
          let spaceLeft := if width < 1 then 1 else width - len1
          let hl := handleLong ch spaceLeft
          (cur1 ++ [hl.1], hl.2 :: rest)
        else (cur1, rem1)
      | [] => (cur1, ([] : List (List Char)))
    let cur2 := step.1
    let rem2 := step.2
    let cur3 :=
      match cur2.getLast? with
      | some lastC => if chunkIsWS lastC then cur2.dropLast else cur2
      | none => cur2
    let lines2 := if cur3.isEmpty then lines else (indent ++ cur3.flatten) :: lines
    wrapLoop width0 ind1 ind2 fuel rem2 lines2

/-- `textwrap.TextWrapper(width=78, initial_indent="  ",
subsequent_indent="    ").wrap(s)`. -/
def wrap78 (s : String) : List String :=
  let text := munge s.data
  let chunks := chunksGo (text.length + 1) [] text
  (wrapLoop 78 "  ".data "    ".data (2 * text.length + chunks.length + 8)
      chunks []).map (fun l => (⟨l⟩ : String))

/-- `print_field`: append the wrapped lines of `"<key> = {<value>},"` to the
output line list (the Python function mutates its `output` argument). -/
def print_field (output : List String) (key value : String) : List String :=
  output ++ wrap78 (key ++ " = \x7b" ++ value ++ "\x7d,")

/-- Total character count of a chunk list. -/
def sumLen (l : List (List Char)) : Nat := (l.map List.length).sum

/-- The per-iteration core of `wrapLoop`: greedy fill plus the long-word step,
returning the line chunks before the trailing-whitespace drop and the
remaining chunks. -/
def wrapStepPair (width : Nat) (chunks1 : List (List Char)) :
    List (List Char) × List (List Char) :=
  let fill := takeFill width 0 chunks1
  let cur1 := fill.1
  let len1 := fill.2.1
  let rem1 := fill.2.2
  match rem1 with
  | ch :: rest =>
    if width < ch.length then
      let spaceLeft := if width < 1 then 1 else width - len1
      let hl := handleLong ch spaceLeft
      (cur1 ++ [hl.1], hl.2 :: rest)
    else (cur1, rem1)
  | [] => (cur1, ([] : List (List Char)))

/-- The line chunks of one `wrapLoop` iteration after the trailing-whitespace
drop. -/
def wrapCur3 (width : Nat) (chunks1 : List (List Char)) : List (List Char) :=
  let cur2 := (wrapStepPair width chunks1).1
  match cur2.getLast? with
  | some lastC => if chunkIsWS lastC then cur2.dropLast else cur2
  | none => cur2

/-! ### The record pipeline (`clean_record`, bibgulp.py lines 118-179)

`clean_record` mutates its record in place and returns the rendered text; the
embedding returns the text together with the final record.  The `author` field
holds a list of names between `customization.author` and the re-join at line
155; following the spec's two-phase representation note, the embedding keeps
that list in a separate component while it exists, which leaves every
dict-valued field a string.  The only dict iteration in that window (the
renderer's extra-fields loop) skips `author` because it is a known field, so
the separation does not change any observable behavior. -/

/-- Malformed-identifier recovery (lines 119-123).  When the raw identifier
starts with a newline and contains `=`, Python computes
`parts = id_[1:].split("=")` and assigns `record[parts[0]] = parts[1][1:]`:
the field name is the text before the first `=`, and the value is the text
between the first and second `=` (or to the end when there is no second `=`)
minus its first character. -/
def recoverID (id0 : String) (r : BibRec) : BibRec :=
  match id0.data with
  | [] => r
  | c :: rest =>
    if c = '\n' && rest.contains '=' then
      let pre := rest.takeWhile (fun a => a ≠ '=')
      let part1 := ((rest.dropWhile (fun a => a ≠ '=')).drop 1).takeWhile (fun a => a ≠ '=')
      setVal r ⟨pre⟩ ⟨part1.drop 1⟩
    else r

/-- Whitespace trim (lines 124-125): strip every field value. -/
def trimRec (r : BibRec) : BibRec := r.map (fun kv => (kv.1, pyStrip kv.2))

/-- The list preparation of `bibtexparser.customization.author`:
`[i.strip() for i in v.replace('\n', ' ').split(" and ")]`, fed to the
external `getnames`. -/
def authorNames (getnames : List String → List String) (v : String) : List String :=
  getnames (((splitOnListL ' ' "and ".data (replaceCharL '\n' [' '] v.data)).map
    (fun l => pyStrip ⟨l⟩)))

/-- Record part of `customization.author` (line 126): the `author` key leaves
the string record whenever it was present (either replaced by a name list,
which the embedding keeps separately, or deleted when empty). -/
def cznAuthorRec (r : BibRec) : BibRec :=
  match getVal? r "author" with
  | none => r
  | some _ => delKey r "author"

/-- Name-list part of `customization.author`: `some` names when `author` was
present and non-empty, `none` (no author key) otherwise. -/
def cznAuthorList (getnames : List String → List String) (r : BibRec) :
    Option (List String) :=
  match getVal? r "author" with
  | none => none
  | some v => if v ≠ "" then some (authorNames getnames v) else none

/-- Link rename (lines 132-134). -/
def linkStep (r : BibRec) : BibRec :=
  match getVal? r "link" with
  | some v => delKey (setVal r "url" v) "link"
  | none => r

/-- Keyword rename (lines 135-137). -/
def keywordStep (r : BibRec) : BibRec :=
  match getVal? r "keyword" with
  | some v => delKey (setVal r "keywords" v) "keyword"
  | none => r

/-- The first two keywords phases (lines 140-142): lowercase, then replace
commas by semicolons when there are commas but no semicolons. -/
def kwComma (kw0 : String) : String :=
  let k1 := pyLower kw0
  if k1.data.contains ',' && !k1.data.contains ';' then
    (⟨replaceCharL ',' [';'] k1.data⟩ : String)
  else k1

/-- Keywords normalization (lines 138-145): the comma phase, then replace every
semicolon by semicolon-space when there is a semicolon but no semicolon-space
substring anywhere. -/
def kwNormalize (kw0 : String) : String :=
  let k2 := kwComma kw0
  if k2.data.contains ';' && !containsSubL [';', ' '] k2.data then
    (⟨replaceCharL ';' [';', ' '] k2.data⟩ : String)
  else k2

/-- The keywords step applied to the record. -/
def keywordsStep (r : BibRec) : BibRec :=
  match getVal? r "keywords" with
  | some kw => setVal r "keywords" (kwNormalize kw)
  | none => r

/-- Empty-note removal (lines 146-147). -/
def noteStep (r : BibRec) : BibRec :=
  match getVal? r "note" with
  | some v => if v = "" then delKey r "note" else r
  | none => r

/-- Year default (lines 148-149). -/
def yearStep (r : BibRec) : BibRec :=
  if hasKey r "year" then r else setVal r "year" "XXXX"

/-- Number dash fix (lines 150-151): en-dash to double hyphen. -/
def numberStep (r : BibRec) : BibRec :=
  match getVal? r "number" with
  | some v => setVal r "number" ⟨replaceCharL '–' ['-', '-'] v.data⟩
  | none => r

/-- Abstract default (lines 128-129). -/
def abstractStep (r : BibRec) : BibRec :=
  if hasKey r "abstract" then r else setVal r "abstract" ""

/-- `strip_accents` (lines 113-115): Unicode NFD followed by removal of
combining-mark characters.  On ASCII strings — the scope of this embedding —
NFD is the identity and no combining marks occur, so this is the identity. -/
def strip_accents (s : String) : String := s

/-- Literal matcher: consume `pat` from the head of `cs`. -/
def matchLit : List Char → List Char → Option (List Char)
  | [], rest => some rest
  | _ :: _, [] => none
  | p :: ps, c :: cs => if c = p then matchLit ps cs else none

/-- The suffix of the DOI regex, `doi.org/` (the dot is an unescaped
any-character, faithfully to the source pattern). -/
def doiTail (cs : List Char) : Option (List Char) :=
  match cs with
  | 'd' :: 'o' :: 'i' :: _ :: rest => matchLit ['o', 'r', 'g', '/'] rest
  | _ => none

/-- Anchored match of `https?://(dx.)?doi.org/` (unescaped dots match any
character), returning the remainder after the match. -/
def matchDoiHead (cs : List Char) : Option (List Char) :=
  (matchLit ['h', 't', 't', 'p'] cs).bind fun r1 =>
    (match matchLit ['s', ':', '/', '/'] r1 with
     | some r2 => some r2
     | none => matchLit [':', '/', '/'] r1).bind fun r3 =>
      match (match r3 with
             | 'd' :: 'x' :: _ :: rr => doiTail rr
             | _ => none) with
      | some r4 => some r4
      | none => doiTail r3

/-- DOI stripping (lines 158-161): `re.sub("^https?://(dx.)?doi.org/", "", v)`
removes at most one anchored prefix match. -/
def doiStep (r : BibRec) : BibRec :=
  match getVal? r "doi" with
  | some v =>
    setVal r "doi" (match matchDoiHead v.data with
                    | some rest => (⟨rest⟩ : String)
                    | none => v)
  | none => r

/-- Abstract brace cleanup (lines 169-171): remove every literal backslash-brace
pair. -/
def debrace (s : String) : String :=
  ⟨replaceSubL '\\' ['\x7d'] [] (replaceSubL '\\' ['\x7b'] [] s.data)⟩

/-- Abstract prefix cleanup (lines 173-175): `re.sub("^Abstract ", "", v)`. -/
def stripAbstractWord (s : String) : String :=
  if ("Abstract ".data).isPrefixOf s.data then ⟨s.data.drop 9⟩ else s

/-- The emission order of lines 57-58. -/
def field_order : List String :=
  ["author", "title", "year", "journal", "volume", "number", "pages",
   "editor", "booktitle", "series", "keywords"]

/-- The known fields of line 59. -/
def known_fields : List String := field_order ++ ["ENTRYTYPE", "ID", "abstract"]

/-- The renderer loop over `field_order` (lines 162-164). -/
def orderedLines (r : BibRec) (out : List String) : List String :=
  field_order.foldl
    (fun o f => match getVal? r f with
                | some v => print_field o f v
                | none => o)
    out

/-- The renderer loop over the remaining fields (lines 165-167): every record
entry whose key is not a known field, in record order. -/
def extraLines (r : BibRec) (out : List String) : List String :=
  r.foldl
    (fun o kv => if known_fields.contains kv.1 then o else print_field o kv.1 kv.2)
    out

/-- The output finalization (lines 177-179): drop the last character of the
last line (the trailing comma of the abstract), append the closing brace, and
join with newlines plus a blank line. -/
def finalizeOut (out : List String) : String :=
  let out1 :=
    match out.getLast? with
    | some last => out.dropLast ++ [(⟨last.data.dropLast⟩ : String)]
    | none => out
  String.intercalate "\n" (out1 ++ ["\x7d"]) ++ "\n\n"

/-- `clean_record` (lines 118-179), parameterized by the two external
collaborators.  `none` exactly where the Python code would raise: a missing
`ID` or `ENTRYTYPE` key, or an empty author name list. -/
def clean_record (getnames : List String → List String) (toLatex : String → String)
    (r0 : BibRec) : Option (String × BibRec) :=
  (getVal? r0 "ID").bind fun id0 =>
  let r1 := recoverID id0 r0
  let r2 := trimRec r1
  let r3 := cznAuthorRec r2
  let auth0 := cznAuthorList getnames r2
  let r4 := fix_pages r3
  let r5 := abstractStep r4
  let auth1 : List String := match auth0 with | none => ["Anonymous"] | some l => l
  let r6 := linkStep r5
  let r7 := keywordStep r6
  let r8 := keywordsStep r7
  let r9 := noteStep r8
  let r10 := yearStep r9
  let r11 := numberStep r10
  auth1.head?.bind fun a0 =>
  (getVal? r11 "ENTRYTYPE").bind fun et =>
  (getVal? r11 "year").bind fun yr =>
  let authorkey := strip_accents (pyLower ⟨a0.data.takeWhile (fun c => c ≠ ',')⟩)
  let header := "@" ++ et ++ "\x7b" ++ authorkey ++ yr ++ first_word_component r11 ++ ","
  let r12 := setVal r11 "author" (toLatex (String.intercalate " and " auth1))
  let r13 := fix_title r12
  let r14 := doiStep r13
  let out1 := extraLines r14 (orderedLines r14 [header])
  (getVal? r14 "abstract").bind fun ab0 =>
  let r15 := setVal r14 "abstract" (debrace ab0)
  let ab1 := match getVal? r15 "url" with
             | some u =>
               if containsSubL ("sciencedirect".data) u.data then
                 stripAbstractWord (debrace ab0)
               else debrace ab0
             | none => debrace ab0
  let r16 := setVal r15 "abstract" ab1
  let out2 := print_field out1 "abstract" ab1
  some (finalizeOut out2, r16)

/-- Identity instantiation for the external `getnames` (used for records whose
author field is already in `"Last, First"` form or absent). -/
def idNames : List String → List String := fun ns => ns

/-- Identity instantiation for the external `string_to_latex`, valid on ASCII
strings. -/
def idLatex : String → String := fun s => s

/-! ### Record-operation lemmas -/

theorem getVal?_setVal_self (r : BibRec) (k v : String) :
    getVal? (setVal r k v) k = some v := by
  induction r with
  | nil => simp [setVal, getVal?]
  | cons kv rest ih =>
    obtain ⟨k0, v0⟩ := kv
    by_cases h : k0 = k
    · simp [setVal, getVal?, h]
    · simp [setVal, getVal?, h, ih]

theorem getVal?_setVal_ne (r : BibRec) (k v k2 : String) (h : k2 ≠ k) :
    getVal? (setVal r k v) k2 = getVal? r k2 := by
  induction r with
  | nil => simp [setVal, getVal?, Ne.symm h]
  | cons kv rest ih =>
    obtain ⟨k0, v0⟩ := kv
    by_cases h0 : k0 = k
    · subst h0
      simp [setVal, getVal?, Ne.symm h]
    · simp [setVal, getVal?, h0, ih]

theorem getVal?_delKey_ne (r : BibRec) (k k2 : String) (h : k2 ≠ k) :
    getVal? (delKey r k) k2 = getVal? r k2 := by
  induction r with
  | nil => simp [delKey]
  | cons kv rest ih =>
    obtain ⟨k0, v0⟩ := kv
    by_cases h0 : k0 = k
    · subst h0
      simp [delKey, getVal?, Ne.symm h]
    · simp [delKey, getVal?, h0, ih]

theorem isSome_setVal (r : BibRec) (k v k2 : String)
    (h : (getVal? r k2).isSome) : (getVal? (setVal r k v) k2).isSome := by
  by_cases hk : k2 = k
  · subst hk
    simp [getVal?_setVal_self]
  · rwa [getVal?_setVal_ne r k v k2 hk]

theorem getVal?_trimRec (r : BibRec) (k : String) :
    getVal? (trimRec r) k = (getVal? r k).map pyStrip := by
  induction r with
  | nil => simp [trimRec, getVal?]
  | cons kv rest ih =>
    obtain ⟨k0, v0⟩ := kv
    by_cases h : k0 = k
    · simp [trimRec, getVal?, h]
    · simpa [trimRec, getVal?, h] using ih

/-! ### Step-preservation lemmas (key presence through the pipeline) -/

theorem presRecover (id0 : String) (r : BibRec) (k : String)
    (h : (getVal? r k).isSome) : (getVal? (recoverID id0 r) k).isSome := by
  rcases hd : id0.data with _ | ⟨c, rest⟩
  · simp [recoverID, hd, h]
  · by_cases hc : c = '\n' && rest.contains '='
    · simp only [recoverID, hd, hc, if_true]
      exact isSome_setVal _ _ _ _ h
    · simp only [recoverID, hd, hc, if_false]
      exact h

theorem presTrim (r : BibRec) (k : String)
    (h : (getVal? r k).isSome) : (getVal? (trimRec r) k).isSome := by
  rw [getVal?_trimRec]
  simpa using h

theorem presCzn (r : BibRec) (k : String) (hk : k ≠ "author")
    (h : (getVal? r k).isSome) : (getVal? (cznAuthorRec r) k).isSome := by
  rcases ha : getVal? r "author" with _ | v
  · simpa [cznAuthorRec, ha] using h
  · simp only [cznAuthorRec, ha]
    rwa [getVal?_delKey_ne _ _ _ hk]

theorem presFixPages (r : BibRec) (k : String)
    (h : (getVal? r k).isSome) : (getVal? (fix_pages r) k).isSome := by
  rcases hp : getVal? r "pages" with _ | p0
  · simpa [fix_pages, hp] using h
  · rcases ht : twoDigitRuns p0.data with _ | ⟨g1, g2⟩
    · simpa [fix_pages, hp, ht] using h
    · simp only [fix_pages, hp, ht]
      exact isSome_setVal _ _ _ _ h

theorem presAbstract (r : BibRec) (k : String)
    (h : (getVal? r k).isSome) : (getVal? (abstractStep r) k).isSome := by
  unfold abstractStep
  by_cases ha : hasKey r "abstract"
  · rwa [if_pos ha]
  · rw [if_neg ha]
    exact isSome_setVal _ _ _ _ h

theorem presLink (r : BibRec) (k : String) (hk : k ≠ "link")
    (h : (getVal? r k).isSome) : (getVal? (linkStep r) k).isSome := by
  rcases hl : getVal? r "link" with _ | v
  · simpa [linkStep, hl] using h
  · simp only [linkStep, hl]
    rw [getVal?_delKey_ne _ _ _ hk]
    exact isSome_setVal _ _ _ _ h

theorem presKeyword (r : BibRec) (k : String) (hk : k ≠ "keyword")
    (h : (getVal? r k).isSome) : (getVal? (keywordStep r) k).isSome := by
  rcases hl : getVal? r "keyword" with _ | v
  · simpa [keywordStep, hl] using h
  · simp only [keywordStep, hl]
    rw [getVal?_delKey_ne _ _ _ hk]
    exact isSome_setVal _ _ _ _ h

theorem presKeywords (r : BibRec) (k : String)
    (h : (getVal? r k).isSome) : (getVal? (keywordsStep r) k).isSome := by
  rcases hl : getVal? r "keywords" with _ | kw
  · simpa [keywordsStep, hl] using h
  · simp only [keywordsStep, hl]
    exact isSome_setVal _ _ _ _ h

theorem presNote (r : BibRec) (k : String) (hk : k ≠ "note")
    (h : (getVal? r k).isSome) : (getVal? (noteStep r) k).isSome := by
  rcases hn : getVal? r "note" with _ | v
  · simpa [noteStep, hn] using h
  · by_cases hv : v = ""
    · simp only [noteStep, hn, hv, if_true]
      rwa [getVal?_delKey_ne _ _ _ hk]
    · simpa [noteStep, hn, hv] using h

theorem presYear (r : BibRec) (k : String)
    (h : (getVal? r k).isSome) : (getVal? (yearStep r) k).isSome := by
  unfold yearStep
  by_cases hy : hasKey r "year"
  · rwa [if_pos hy]
  · rw [if_neg hy]
    exact isSome_setVal _ _ _ _ h

theorem presNumber (r : BibRec) (k : String)
    (h : (getVal? r k).isSome) : (getVal? (numberStep r) k).isSome := by
  rcases hn : getVal? r "number" with _ | v
  · simpa [numberStep, hn] using h
  · simp only [numberStep, hn]
    exact isSome_setVal _ _ _ _ h

theorem presFixTitle (r : BibRec) (k : String)
    (h : (getVal? r k).isSome) : (getVal? (fix_title r) k).isSome := by
  rcases ht : getVal? r "title" with _ | t
  · simpa [fix_title, ht] using h
  · rcases hj : getVal? r "journal" with _ | j
    · simp only [fix_title, ht, hj, if_false]
      exact isSome_setVal _ _ _ _ h
    · by_cases hc : capitalizers.contains j
      · have hm : j ∈ capitalizers := by simpa using hc
        simpa [fix_title, ht, hj, hm] using h
      · simp only [fix_title, ht, hj, hc, if_false]
        exact isSome_setVal _ _ _ _ h

theorem presDoi (r : BibRec) (k : String)
    (h : (getVal? r k).isSome) : (getVal? (doiStep r) k).isSome := by
  rcases hd : getVal? r "doi" with _ | v
  · simpa [doiStep, hd] using h
  · simp only [doiStep, hd]
    exact isSome_setVal _ _ _ _ h

theorem yearSomeAfter (r : BibRec) : (getVal? (yearStep r) "year").isSome := by
  unfold yearStep
  by_cases hy : hasKey r "year"
  · rw [if_pos hy]
    exact hy
  · rw [if_neg hy]
    simp [getVal?_setVal_self]

theorem abstractSomeAfter (r : BibRec) :
    (getVal? (abstractStep r) "abstract").isSome := by
  unfold abstractStep
  by_cases ha : hasKey r "abstract"
  · rw [if_pos ha]
    exact ha
  · rw [if_neg ha]
    simp [getVal?_setVal_self]

/-! ### Digit-run lemmas for claim C1 -/

theorem headDropWhileFalse (p : Char → Bool) :
    ∀ (l : List Char) (c : Char) (rest : List Char),
      l.dropWhile p = c :: rest → p c = false := by
  intro l
  induction l with
  | nil =>
    intro c rest h
    simp [List.dropWhile] at h
  | cons a tl ih =>
    intro c rest h
    by_cases hp : p a
    · rw [List.dropWhile_cons_of_pos hp] at h
      exact ih c rest h
    · rw [List.dropWhile_cons_of_neg hp] at h
      cases h
      simpa using hp

theorem digitRunsConsPos (rest : List Char) :
    ∀ (c : Char), c.isDigit = true →
      digitRuns (c :: rest) =
        (c :: rest.takeWhile Char.isDigit) :: digitRuns (rest.dropWhile Char.isDigit) := by
  induction rest with
  | nil =>
    intro c h
    simp [digitRuns, h]
  | cons d r ih =>
    intro c h
    by_cases hd : d.isDigit
    · have hdr := ih d hd
      have step : digitRuns (c :: d :: r) =
          (c :: (digitRuns (d :: r)).headD []) :: (digitRuns (d :: r)).tail := by
        conv_lhs => rw [digitRuns]
        simp [h, hd]
      rw [List.takeWhile_cons_of_pos hd, List.dropWhile_cons_of_pos hd, step, hdr]
      simp
    · have hd2 : d.isDigit = false := by simpa using hd
      have step : digitRuns (c :: d :: r) = [c] :: digitRuns (d :: r) := by
        conv_lhs => rw [digitRuns]
        simp [h, hd2]
      rw [List.takeWhile_cons_of_neg (by simp [hd2]),
        List.dropWhile_cons_of_neg (by simp [hd2]), step]

theorem digitRunsConsNeg (c : Char) (rest : List Char) (h : c.isDigit = false) :
    digitRuns (c :: rest) = digitRuns rest := by
  simp [digitRuns, h]

theorem digitRunsDropNotDig (cs : List Char) :
    digitRuns (cs.dropWhile notDig) = digitRuns cs := by
  induction cs with
  | nil => rfl
  | cons c rest ih =>
    by_cases hc : c.isDigit
    · rw [List.dropWhile_cons_of_neg (by simp [notDig, hc])]
    · rw [List.dropWhile_cons_of_pos (by simp [notDig, hc]), ih,
        digitRunsConsNeg c rest (by simpa using hc)]

/-- The regex groups coincide with the first two maximal digit runs. -/
theorem twoDigitRunsEq (cs : List Char) :
    twoDigitRuns cs =
      match digitRuns cs with
      | g1 :: g2 :: _ => some (g1, g2)
      | _ => none := by
  rcases h1 : cs.dropWhile notDig with _ | ⟨c, rest⟩
  · have hruns : digitRuns cs = [] := by
      rw [← digitRunsDropNotDig, h1]
      rfl
    simp [twoDigitRuns, h1, hruns]
  · have hc : c.isDigit = true := by
      have := headDropWhileFalse notDig cs c rest h1
      simpa [notDig] using this
    have hruns1 : digitRuns cs =
        (c :: rest.takeWhile Char.isDigit) :: digitRuns (rest.dropWhile Char.isDigit) := by
      rw [← digitRunsDropNotDig, h1, digitRunsConsPos rest c hc]
    rcases h2 : (rest.dropWhile Char.isDigit).dropWhile notDig with _ | ⟨d, r2⟩
    · have hruns2 : digitRuns (rest.dropWhile Char.isDigit) = [] := by
        rw [← digitRunsDropNotDig, h2]
        rfl
      rw [hruns1, hruns2]
      simp [twoDigitRuns, h1, hc, List.takeWhile_cons_of_pos,
        List.dropWhile_cons_of_pos, h2]
    · have hd : d.isDigit = true := by
        have := headDropWhileFalse notDig (rest.dropWhile Char.isDigit) d r2 h2
        simpa [notDig] using this
      have hruns2 : digitRuns (rest.dropWhile Char.isDigit) =
          (d :: r2.takeWhile Char.isDigit) :: digitRuns (r2.dropWhile Char.isDigit) := by
        rw [← digitRunsDropNotDig, h2, digitRunsConsPos r2 d hd]
      rw [hruns1, hruns2]
      simp [twoDigitRuns, h1, hc, hd, List.takeWhile_cons_of_pos,
        List.dropWhile_cons_of_pos, h2]

/-- C1: for every record, if a `pages` field exists and its value contains at
least two maximal digit runs, the field is rewritten as the first run, a double
hyphen, and the second run (every separator and surrounding text discarded);
if the field is absent, or fewer than two digit runs occur, the record is left
unchanged. -/
theorem c1_pages_normalization (r : BibRec) :
    (getVal? r "pages" = none → fix_pages r = r) ∧
    (∀ p, getVal? r "pages" = some p →
      (∀ g1 g2 gs, digitRuns p.data = g1 :: g2 :: gs →
        fix_pages r = setVal r "pages" ⟨g1 ++ '-' :: '-' :: g2⟩) ∧
      ((digitRuns p.data).length ≤ 1 → fix_pages r = r)) := by
  constructor
  · intro h
    simp [fix_pages, h]
  · intro p hp
    constructor
    · intro g1 g2 gs hruns
      have ht : twoDigitRuns p.data = some (g1, g2) := by
        rw [twoDigitRunsEq, hruns]
      simp [fix_pages, hp, ht]
    · intro hlen
      have ht : twoDigitRuns p.data = none := by
        rw [twoDigitRunsEq]
        rcases hr : digitRuns p.data with _ | ⟨g1, _ | ⟨g2, gs⟩⟩
        · rfl
        · rfl
        · rw [hr] at hlen
          simp at hlen
      simp [fix_pages, hp, ht]

/-- Witness for C1 at `pages = "pp. 12-34"`: the first two digit runs are `12`
and `34`, and the field is rewritten to `12--34`. -/
theorem c1_pages_normalization_witness :
    fix_pages [("pages", "pp. 12-34")] = [("pages", "12--34")] := by
  have h := ((c1_pages_normalization [("pages", "pp. 12-34")]).2 "pp. 12-34"
    (by decide)).1 ['1', '2'] ['3', '4'] [] (by decide)
  simpa using h

/-! ### Claim C2: first-word component of the citation key -/

theorem firstGoodWordEqFind (ws : List String) :
    firstGoodWord ws =
      (ws.find? (fun w => !stop_words.contains w && !startsDigit w)).getD "xxx" := by
  induction ws with
  | nil => rfl
  | cons w rest ih =>
    by_cases hw : (!stop_words.contains w && !startsDigit w) = true
    · have hp : w ∉ stop_words ∧ startsDigit w = false := by simpa using hw
      simp [firstGoodWord, List.find?, hw, hp]
    · have hp : ¬(w ∉ stop_words ∧ startsDigit w = false) := by simpa using hw
      have hw2 : (!stop_words.contains w && !startsDigit w) = false := by
        simpa using hw
      simp only [firstGoodWord, List.find?, hw2, if_neg hp]
      rw [ih]
      rfl

/-- C2 (amended): the first-word component of the citation key is the first
whitespace-delimited word of the title, lowercased, that is not a stop word
and does not start with a digit; the literal `"xxx"` when no word qualifies;
and — correcting the claim — the literal string `"None"` (Python interpolation
of `None` under `"%s"`) when the title field is absent, so the key is
`<authorkey><year>None` rather than `<authorkey><year>`. -/
theorem c2_first_word_amended (r : BibRec) :
    (getVal? r "title" = none → first_word_component r = "None") ∧
    (∀ t, getVal? r "title" = some t →
      first_word_component r =
        (((pySplitWhite t).map pyLower).find?
          (fun w => !stop_words.contains w && !startsDigit w)).getD "xxx") := by
  constructor
  · intro h
    simp [first_word_component, get_first_word, h, pyFormatOpt]
  · intro t ht
    simp only [first_word_component, get_first_word, ht, pyFormatOpt]
    exact firstGoodWordEqFind _

/-- Witness for the amended C2: a present title yields its first qualifying
word, and an absent title yields the literal `"None"`. -/
theorem c2_first_word_amended_witness :
    first_word_component [("title", "The Rise Of Geology")] = "rise" ∧
    first_word_component [("ENTRYTYPE", "article"), ("ID", "w2"), ("year", "1999")] = "None" := by
  constructor
  · rw [(c2_first_word_amended [("title", "The Rise Of Geology")]).2
      "The Rise Of Geology" (by decide)]
    decide
  · exact (c2_first_word_amended
      [("ENTRYTYPE", "article"), ("ID", "w2"), ("year", "1999")]).1 (by decide)

/-- Counterexample to C2 as stated: for a record without a title field the
first-word component of the key is the four-character string `"None"`, not the
empty string. -/
theorem c2_first_word_counterexample :
    first_word_component [("ENTRYTYPE", "article"), ("ID", "c2"), ("year", "1999")] = "None" ∧
    ("None" : String) ≠ "" := by
  constructor
  · decide
  · decide

/-! ### Claim C3: keywords separator normalization -/

/-- Every semicolon is immediately followed by a space. -/
def semiSpacedB : List Char → Bool
  | [] => true
  | c :: rest =>
    if c = ';' then
      (match rest with | ' ' :: _ => true | _ => false) && semiSpacedB rest
    else semiSpacedB rest

theorem semiSpacedReplace (cs : List Char) :
    semiSpacedB (replaceCharL ';' [';', ' '] cs) = true := by
  induction cs with
  | nil => rfl
  | cons c rest ih =>
    by_cases hc : c = ';'
    · subst hc
      simp only [replaceCharL, if_pos rfl, List.cons_append, List.nil_append]
      simpa [semiSpacedB] using ih
    · simp only [replaceCharL, if_neg hc, List.cons_append, List.nil_append]
      simpa [semiSpacedB, hc] using ih

/-- C3 (amended): the keywords step lowercases the value and replaces commas by
semicolons when commas occur without semicolons; then, only when the value
contains a semicolon and contains no occurrence of the two-character substring
`"; "` anywhere, every semicolon is replaced by `"; "` (after which every
semicolon is followed by a space); otherwise the semicolons are left exactly as
they are — a value that already contains `"; "` somewhere keeps its remaining
unspaced semicolons. -/
theorem c3_keywords_amended (r : BibRec) (kw : String)
    (h : getVal? r "keywords" = some kw) :
    keywordsStep r = setVal r "keywords" (kwNormalize kw) ∧
    (((kwComma kw).data.contains ';' && !containsSubL [';', ' '] (kwComma kw).data) = true →
      kwNormalize kw = ⟨replaceCharL ';' [';', ' '] (kwComma kw).data⟩ ∧
      semiSpacedB (kwNormalize kw).data = true) ∧
    (((kwComma kw).data.contains ';' && !containsSubL [';', ' '] (kwComma kw).data) = false →
      kwNormalize kw = kwComma kw) := by
  refine ⟨by simp [keywordsStep, h], fun hc => ?_, fun hc => ?_⟩
  · have he : kwNormalize kw = (⟨replaceCharL ';' [';', ' '] (kwComma kw).data⟩ : String) := by
      simp only [kwNormalize, hc, if_true]
    exact ⟨he, by rw [he]; exact semiSpacedReplace _⟩
  · simp only [kwNormalize]
    rw [hc]
    simp

/-- Witness for the amended C3 at `keywords = "Foo,Bar"`: lowercased, commas
replaced, and every semicolon spaced. -/
theorem c3_keywords_amended_witness :
    keywordsStep [("keywords", "Foo,Bar")] =
      setVal [("keywords", "Foo,Bar")] "keywords" (kwNormalize "Foo,Bar") ∧
    semiSpacedB (kwNormalize "Foo,Bar").data = true ∧
    kwNormalize "Foo,Bar" = "foo; bar" := by
  have h := c3_keywords_amended [("keywords", "Foo,Bar")] "Foo,Bar" (by decide)
  exact ⟨h.1, (h.2.1 (by decide)).2, by decide⟩

/-- Counterexample to C3 as stated: for `keywords = "a; b;c"` (which already
contains `"; "`), the step changes nothing, so the semicolon before `c` is
still not followed by a space in the normalized value. -/
theorem c3_keywords_counterexample :
    keywordsStep [("keywords", "a; b;c")] = [("keywords", "a; b;c")] ∧
    semiSpacedB ("a; b;c".data) = false := by
  exact ⟨by decide, by decide⟩

/-! ### Claim C4: whitespace stripping -/

theorem dropWhilePrefix (p : Char → Bool) (X Y : List Char) (hY : Y <+: X)
    (hX : X.dropWhile p = X) : Y.dropWhile p = Y := by
  cases Y with
  | nil => rfl
  | cons c t =>
    obtain ⟨s, hs⟩ := hY
    have hc : p c = false := by
      rw [← hs] at hX
      by_contra hpc
      have hpc2 : p c = true := by
        revert hpc
        cases p c
        · intro hn
          exact absurd rfl hn
        · intro _
          rfl
      rw [List.cons_append, List.dropWhile_cons_of_pos hpc2] at hX
      have hlen := congrArg List.length hX
      have hle := lengthDropWhileLe p (t ++ s)
      rw [hlen] at hle
      simp only [List.length_append, List.length_cons] at hle
      omega
    exact List.dropWhile_cons_of_neg (by simp [hc])

theorem pyStripLIdem (cs : List Char) : pyStripL (pyStripL cs) = pyStripL cs := by
  have hform : ∀ l : List Char, pyStripL l = List.rdropWhile pyWS (l.dropWhile pyWS) := by
    intro l
    rfl
  rw [hform, hform]
  have h1 : (List.rdropWhile pyWS (cs.dropWhile pyWS)).dropWhile pyWS
      = List.rdropWhile pyWS (cs.dropWhile pyWS) :=
    dropWhilePrefix pyWS (cs.dropWhile pyWS) _ (List.rdropWhile_prefix _ _)
      (List.dropWhile_idempotent pyWS cs)
  rw [h1, List.rdropWhile_idempotent]

theorem pyStripIdem (s : String) : pyStrip (pyStrip s) = pyStrip s := by
  unfold pyStrip
  exact congrArg String.mk (pyStripLIdem s.data)

/-- C4 (amended): immediately after the whitespace-trim step, every field value
of the record is stripped of leading and trailing whitespace.  The invariant
holds at the trim step only: steps that run afterwards may reintroduce
whitespace (the keywords rewrite appends a space after a trailing semicolon, as
the counterexample shows). -/
theorem c4_trim_amended (r : BibRec) :
    ∀ kv, kv ∈ trimRec r → pyStrip kv.2 = kv.2 := by
  intro kv hkv
  unfold trimRec at hkv
  obtain ⟨kv0, _, hkv2⟩ := List.mem_map.mp hkv
  rw [← hkv2]
  exact pyStripIdem kv0.2

/-- Witness for the amended C4: the trim step strips, and stripped values are
fixed points. -/
theorem c4_trim_amended_witness : pyStrip "a b" = "a b" :=
  c4_trim_amended [("title", "  a b ")] ("title", "a b") (by decide)

/-- Counterexample to C4 as stated: the input record has `keywords "foo;bar;"`
with no surrounding whitespace, yet after the full normalization the record's
`keywords` value is `"foo; bar; "`, which ends in a space. -/
theorem c4_trailing_ws_counterexample :
    (clean_record idNames idLatex
        [("ENTRYTYPE", "article"), ("ID", "x2"), ("keywords", "foo;bar;")]).map
      (fun p => getVal? p.2 "keywords") = some (some "foo; bar; ") ∧
    pyStrip "foo; bar; " ≠ "foo; bar; " := by
  exact ⟨by decide, by decide⟩

/-! ### Claim C5: field-line wrapping -/

/-- Counterexample to C5 as stated: the value is a single 100-character word,
and the rendered output breaks it mid-word — the word appears whole in neither
output line (each line is shorter than the word). -/
theorem c5_wrap_counterexample :
    print_field [] "doi" (⟨List.replicate 100 'x'⟩ : String) =
      [(⟨"  doi = \x7b".data ++ List.replicate 69 'x'⟩ : String),
       (⟨"    ".data ++ List.replicate 31 'x' ++ "\x7d,".data⟩ : String)] ∧
    containsSubL (List.replicate 100 'x')
      ("  doi = \x7b".data ++ List.replicate 69 'x') = false ∧
    containsSubL (List.replicate 100 'x')
      ("    ".data ++ List.replicate 31 'x' ++ "\x7d,".data) = false := by
  refine ⟨by decide, by decide, by decide⟩

/-! ### Claim C6: malformed-identifier recovery -/

/-- C6 (amended): when the raw identifier begins with a newline and contains an
`=`, the text before the first `=` (leading newline removed) becomes the field
name, and the value is the text between the first and the second `=` (or up to
the end when there is only one `=`) minus its first character — any text from
a second `=` onward is discarded, because the code takes `parts[1]` of the
full split on every `=`. -/
theorem c6_recover_amended (id0 : String) (r : BibRec) (rest : List Char)
    (h1 : id0.data = '\n' :: rest) (h3 : rest.contains '=' = true) :
    recoverID id0 r =
      setVal r ⟨rest.takeWhile (fun a => a ≠ '=')⟩
        ⟨(((rest.dropWhile (fun a => a ≠ '=')).drop 1).takeWhile
            (fun a => a ≠ '=')).drop 1⟩ := by
  unfold recoverID
  rw [h1]
  have hm : '=' ∈ rest := by simpa using h3
  simp [h3, hm]

/-- Witness for the amended C6: the identifier `"\nurl=\"http://x\""` assigns
field `url` with value `"http://x\""` (the text after the first `=` up to the
end, minus the leading quote). -/
theorem c6_recover_amended_witness :
    recoverID "\nurl=\"http://x\"" [("ID", "y")] = [("ID", "y"), ("url", "http://x\"")] := by
  rw [c6_recover_amended "\nurl=\"http://x\"" [("ID", "y")] ("url=\"http://x\"".data)
    (by decide) (by decide)]
  decide

/-- Counterexample to C6 as stated: for identifier `"\nk=v=w"` the claim
predicts value `"=w"` (all text after the first `=`, minus one character), but
the code assigns the empty string — `parts[1]` is just `"v"`, so everything
from the second `=` on is lost. -/
theorem c6_recover_counterexample :
    recoverID "\nk=v=w" [] = [("k", "")] ∧ ("" : String) ≠ "=w" := by
  exact ⟨by decide, by decide⟩

/-! ### Claim C7: renderer tail -/

/-- C7 (amended): the `abstract` field is always emitted last, even when empty;
but the trailing comma is stripped from the last line of the abstract field
itself — the last output line — not from the field emitted before `abstract`,
whose comma survives; then the closing brace is appended and the block ends
with two trailing newlines. -/
theorem c7_render_amended (prev : List String) (ab : String) (ls : List String)
    (hls : wrap78 ("abstract" ++ " = \x7b" ++ ab ++ "\x7d,") = ls) (h : ls ≠ []) :
    finalizeOut (print_field prev "abstract" ab) =
      String.intercalate "\n"
        (prev ++ (ls.dropLast ++ [(⟨(ls.getLast h).data.dropLast⟩ : String)]) ++ ["\x7d"])
        ++ "\n\n" := by
  unfold print_field finalizeOut
  rw [hls]
  rw [List.getLast?_append, List.getLast?_eq_getLast ls h]
  simp only [Option.or_some]
  rw [List.dropLast_append_of_ne_nil prev h]
  simp [List.append_assoc]

/-- Witness for the amended C7: one field line before an empty abstract — the
`year` line keeps its comma, the abstract line loses its own. -/
theorem c7_render_amended_witness :
    finalizeOut (print_field ["@article\x7bx,", "  year = \x7b1999\x7d,"] "abstract" "") =
      "@article\x7bx,\n  year = \x7b1999\x7d,\n  abstract = \x7b\x7d\n\x7d\n\n" := by
  rw [c7_render_amended ["@article\x7bx,", "  year = \x7b1999\x7d,"] ""
    ["  abstract = \x7b\x7d,"] (by decide) (by decide)]
  decide

/-- The expected rendering of the C7 counterexample record. -/
def renderedSampleText : String :=
  "@article\x7banonymous1999None,\n  author = \x7bAnonymous\x7d,\n  year = \x7b1999\x7d,\n  abstract = \x7b\x7d\n\x7d\n\n"

/-- Counterexample to C7 as stated: in the full rendering of a record whose
last field before `abstract` is `year`, the `year` line still ends with its
comma (followed by the newline), and it is the `abstract` line that has no
trailing comma — the opposite of the claim's attribution. -/
theorem c7_render_counterexample :
    (clean_record idNames idLatex
        [("ENTRYTYPE", "article"), ("ID", "x1"), ("year", "1999")]).map Prod.fst =
      some renderedSampleText ∧
    containsSubL ("  year = \x7b1999\x7d,\n".data) renderedSampleText.data = true ∧
    containsSubL ("  abstract = \x7b\x7d,".data) renderedSampleText.data = false ∧
    containsSubL ("  abstract = \x7b\x7d\n".data) renderedSampleText.data = true := by
  refine ⟨by decide, by decide, by decide, by decide⟩

/-! ### Claim C8: the full pass never fails -/

theorem headIsSomeOfNeNil {α : Type} (l : List α) (h : l ≠ []) : l.head?.isSome := by
  cases l with
  | nil => exact absurd rfl h
  | cons a t => rfl

theorem cznListShape (gn : List String → List String) (r : BibRec) (l : List String)
    (h : cznAuthorList gn r = some l) : ∃ v, l = authorNames gn v := by
  unfold cznAuthorList at h
  rcases ha : getVal? r "author" with _ | v
  · rw [ha] at h
    exact absurd h (by simp)
  · rw [ha] at h
    by_cases hv : v = ""
    · simp [hv] at h
    · simp only [hv, ne_eq, not_false_eq_true, if_true, Option.some.injEq] at h
      exact ⟨v, h.symm⟩

set_option maxHeartbeats 1600000 in
/-- C8: for every record containing the reserved `ID` and `ENTRYTYPE` keys, and
for any external collaborators (assuming only that the delegated author
splitter returns at least one name), the full normalize-and-render pass
produces a result: every normalization step is presence-checked, so an absent
title, unparseable pages, an identifier without `=`, and every other missing or
malformed optional field degrade silently instead of failing the pass. -/
theorem c8_no_raise (gn : List String → List String) (tl : String → String)
    (r0 : BibRec)
    (hID : (getVal? r0 "ID").isSome)
    (hET : (getVal? r0 "ENTRYTYPE").isSome)
    (hgn : ∀ ns, gn ns ≠ []) :
    (clean_record gn tl r0).isSome := by
  obtain ⟨id0, hid⟩ := Option.isSome_iff_exists.mp hID
  have h2ET : (getVal? (trimRec (recoverID id0 r0)) "ENTRYTYPE").isSome :=
    presTrim _ _ (presRecover id0 r0 _ hET)
  have h11ET :=
    presNumber _ _ (presYear _ _ (presNote _ _ (by decide)
      (presKeywords _ _ (presKeyword _ _ (by decide) (presLink _ _ (by decide)
        (presAbstract _ _ (presFixPages _ _ (presCzn _ _ (by decide) h2ET))))))))
  have hyr11 :=
    presNumber _ _ (yearSomeAfter (noteStep (keywordsStep (keywordStep (linkStep
      (abstractStep (fix_pages (cznAuthorRec (trimRec (recoverID id0 r0))))))))))
  have hab11 :=
    presNumber _ _ (presYear _ _ (presNote _ _ (by decide)
      (presKeywords _ _ (presKeyword _ _ (by decide) (presLink _ _ (by decide)
        (abstractSomeAfter (fix_pages (cznAuthorRec (trimRec (recoverID id0 r0))))))))))
  obtain ⟨et, het⟩ := Option.isSome_iff_exists.mp h11ET
  obtain ⟨yr, hyr⟩ := Option.isSome_iff_exists.mp hyr11
  unfold clean_record
  rw [hid]
  simp only [Option.some_bind]
  rcases hauth : cznAuthorList gn (trimRec (recoverID id0 r0)) with _ | l
  · dsimp only
    rw [het, hyr]
    have hab14 :=
      presDoi _ _ (presFixTitle _ _ (isSome_setVal _ "author"
        (tl (String.intercalate " and " ["Anonymous"])) "abstract" hab11))
    obtain ⟨ab, hab⟩ := Option.isSome_iff_exists.mp hab14
    rw [hab]
    simp only [List.head?_cons, Option.some_bind, Option.isSome_some]
  · dsimp only
    obtain ⟨v, hv⟩ := cznListShape gn _ l hauth
    have hlne : l ≠ [] := by
      rw [hv]
      unfold authorNames
      exact hgn _
    obtain ⟨a0, ha0⟩ := Option.isSome_iff_exists.mp (headIsSomeOfNeNil l hlne)
    rw [ha0, het, hyr]
    have hab14 :=
      presDoi _ _ (presFixTitle _ _ (isSome_setVal _ "author"
        (tl (String.intercalate " and " l)) "abstract" hab11))
    obtain ⟨ab, hab⟩ := Option.isSome_iff_exists.mp hab14
    rw [hab]
    simp only [Option.some_bind, Option.isSome_some]

/-- Witness for C8: a record with only the reserved keys and malformed
optional data (an identifier with no `=`, unparseable pages, no title)
still renders. -/
theorem c8_no_raise_witness :
    (clean_record (fun _ => ["Smith, J."]) idLatex
      [("ENTRYTYPE", "article"), ("ID", "w8"), ("pages", "n/a")]).isSome :=
  c8_no_raise (fun _ => ["Smith, J."]) idLatex
    [("ENTRYTYPE", "article"), ("ID", "w8"), ("pages", "n/a")]
    (by decide) (by decide) (fun _ => List.cons_ne_nil _ _)

/-! ### Claim C9: capitalizer journals leave the title unchanged -/

/-- C9: for every record with a title and with a `journal` value that is one of
`Science`, `Geology`, `Surveys in Geophysics`, `Radiocarbon`, the title
case-protection step returns the record completely unchanged. -/
theorem c9_capitalizer_journals (r : BibRec) (t j : String)
    (ht : getVal? r "title" = some t)
    (hj : getVal? r "journal" = some j)
    (hc : j ∈ capitalizers) :
    fix_title r = r := by
  simp [fix_title, ht, hj, hc]

/-- Witness for C9: an all-caps-prone title under journal `Science` survives
untouched. -/
theorem c9_capitalizer_journals_witness :
    fix_title [("title", "The Age Of Rocks"), ("journal", "Science")] =
      [("title", "The Age Of Rocks"), ("journal", "Science")] :=
  c9_capitalizer_journals _ "The Age Of Rocks" "Science" (by decide) (by decide)
    (by decide)

/-! ### Claim C10: per-word case protection -/

/-- The per-word rule exactly as claim C10 words it, for comparison with the
code's `fixWord` (refinement check): the claim reads "remaining characters are
all lowercase" as every remaining character being a lowercase letter. -/
def fixWordClaim (w : String) : String :=
  match w.data with
  | [] => w
  | c :: rest =>
    if rest ≠ [] && c.isUpper && rest.all (fun a => a.isLower) then
      ⟨'\x7b' :: c :: '\x7d' :: rest⟩
    else if (c :: rest).all (fun a => a.isLower) || !c.isAlpha then
      w
    else
      ⟨'\x7b' :: (c :: rest) ++ ['\x7d']⟩

/-- C10 (amended): the first word of the title is never modified, and each word
after the first is rewritten by the `fixWord` rule with Python `islower`
semantics: a word of length at least two whose first character is uppercase
and whose remaining characters include at least one letter but no uppercase
character gets only its first letter brace-wrapped; a word whose characters
include at least one letter but no uppercase character, or one whose first
character is not an ASCII letter, is unchanged; every other word is wrapped
whole in braces. -/
theorem c10_word_amended (r : BibRec) (t : String)
    (ht : getVal? r "title" = some t)
    (hj : ∀ j, getVal? r "journal" = some j → capitalizers.contains j = false) :
    (∃ w ws, pySplitSpace t = w :: ws ∧
      fix_title r = setVal r "title" (String.intercalate " " (w :: ws.map fixWord))) ∧
    (∀ c : Char, ∀ rest : List Char,
      rest ≠ [] → c.isUpper = true → rest.any (fun a => a.isAlpha) = true →
      rest.all (fun a => !a.isUpper) = true →
      fixWord ⟨c :: rest⟩ = ⟨'\x7b' :: c :: '\x7d' :: rest⟩) ∧
    (∀ c : Char, ∀ rest : List Char,
      ((c :: rest).any (fun a => a.isAlpha) = true ∧
        (c :: rest).all (fun a => !a.isUpper) = true) ∨ c.isAlpha = false →
      fixWord ⟨c :: rest⟩ = ⟨c :: rest⟩) ∧
    (∀ c : Char, ∀ rest : List Char,
      c.isAlpha = true →
      ¬((c :: rest).any (fun a => a.isAlpha) = true ∧
        (c :: rest).all (fun a => !a.isUpper) = true) →
      ¬(rest ≠ [] ∧ c.isUpper = true ∧ rest.any (fun a => a.isAlpha) = true ∧
        rest.all (fun a => !a.isUpper) = true) →
      fixWord ⟨c :: rest⟩ = ⟨'\x7b' :: (c :: rest) ++ ['\x7d']⟩) := by
  refine ⟨?_, ?_, ?_, ?_⟩
  · rcases hs : pySplitSpace t with _ | ⟨w, ws⟩
    · exfalso
      have : (splitOnCharL ' ' t.data).length ≠ 0 := by
        cases hd : t.data with
        | nil => simp [splitOnCharL, hd]
        | cons a tl =>
          cases hsp : splitOnCharL ' ' (a :: tl) with
          | nil =>
            exfalso
            cases htl : splitOnCharL ' ' tl with
            | nil =>
              rw [splitOnCharL, htl] at hsp
              by_cases hha : a = ' ' <;> simp [hha] at hsp
            | cons x xs =>
              rw [splitOnCharL, htl] at hsp
              by_cases hha : a = ' ' <;> simp [hha] at hsp
          | cons x xs => simp [hd, hsp]
      apply this
      have := congrArg List.length hs
      simpa [pySplitSpace] using this
    · refine ⟨w, ws, rfl, ?_⟩
      have hexempt :
          (match getVal? r "journal" with
           | some j => capitalizers.contains j
           | none => false) = false := by
        rcases hjv : getVal? r "journal" with _ | j
        · rfl
        · exact hj j hjv
      simp only [fix_title, ht, hexempt, if_false]
      rw [hs]
      rfl
  · intro c rest h1 h2 h3 h4
    simp [fixWord, pyIsLowerStr, h1, h2, h3, h4]
  · intro c rest h
    rcases h with ⟨hany, hall⟩ | hna
    · have hcU : c.isUpper = false := by
        cases hca : c.isUpper
        · rfl
        · rw [List.all_cons, hca] at hall
          simp at hall
      simp [fixWord, pyIsLowerStr, hany, hall, hcU]
    · have hcU : c.isUpper = false := by
        cases hu : c.isUpper
        · rfl
        · have hua : c.isAlpha = true := by
            simp [Char.isAlpha, hu]
          rw [hua] at hna
          cases hna
      simp [fixWord, pyIsLowerStr, hna, hcU]
  · intro c rest hca hn2 hn1
    have hc1 : (decide (rest ≠ []) && c.isUpper && pyIsLowerStr rest) = false := by
      cases hx : (decide (rest ≠ []) && c.isUpper && pyIsLowerStr rest)
      · rfl
      · exfalso
        simp only [Bool.and_eq_true, decide_eq_true_eq, pyIsLowerStr] at hx
        exact hn1 ⟨hx.1.1, hx.1.2, hx.2.1, hx.2.2⟩
    have hc2 : (pyIsLowerStr (c :: rest) || !c.isAlpha) = false := by
      have hp : pyIsLowerStr (c :: rest) = false := by
        cases hpp : pyIsLowerStr (c :: rest)
        · rfl
        · exfalso
          simp only [pyIsLowerStr, Bool.and_eq_true] at hpp
          exact hn2 ⟨hpp.1, hpp.2⟩
      simp [hp, hca]
    simp only [fixWord]
    rw [hc1, hc2]
    simp

/-- Witness for the amended C10: first-letter wrapping, whole-word wrapping,
lowercase word unchanged, and a full title pass. -/
theorem c10_word_amended_witness :
    fixWord ⟨'I' :: "ron".data⟩ = ⟨'\x7b' :: 'I' :: '\x7d' :: "ron".data⟩ ∧
    fixWord ⟨'S' :: "TUDY".data⟩ = ⟨'\x7b' :: ('S' :: "TUDY".data) ++ ['\x7d']⟩ ∧
    fixWord ⟨'o' :: "f".data⟩ = ⟨'o' :: "f".data⟩ ∧
    fix_title [("title", "The Iron Age")] =
      [("title", "The \x7bI\x7dron \x7bA\x7dge")] := by
  obtain ⟨⟨w, ws, hsplit, heq⟩, h1, h2, h3⟩ :=
    c10_word_amended [("title", "The Iron Age")] "The Iron Age" (by decide)
      (fun j hjv => by simp [getVal?] at hjv)
  refine ⟨h1 'I' "ron".data (by decide) (by decide) (by decide) (by decide),
    h3 'S' "TUDY".data (by decide) (by decide) (by decide),
    h2 'o' "f".data (Or.inl ⟨by decide, by decide⟩), ?_⟩
  have hs2 : pySplitSpace "The Iron Age" = ["The", "Iron", "Age"] := by decide
  rw [hs2] at hsplit
  injection hsplit with hw hws
  subst hw
  subst hws
  rw [heq]
  decide

/-- Counterexample to C10 as stated: the word `Mg2` has an uppercase first
letter, and its remaining characters `g2` are not all lowercase letters; the
claim therefore classifies it as "any other word" and wraps it whole, but the
code (Python `islower`, which ignores uncased characters) brace-wraps only the
first letter. -/
theorem c10_word_counterexample :
    fix_title [("title", "The Mg2 problem")] =
      [("title", "The \x7bM\x7dg2 problem")] ∧
    fixWord "Mg2" = "\x7bM\x7dg2" ∧
    fixWordClaim "Mg2" = "\x7bMg2\x7d" ∧
    ("\x7bM\x7dg2" : String) ≠ "\x7bMg2\x7d" := by
  refine ⟨by decide, by decide, by decide, by decide⟩

-- probes
example (cs acc : List (List Char)) : wrapLoop 78 [] [] 0 cs acc = acc.reverse := rfl
example (acc : List (List Char)) (f : Nat) : wrapLoop 78 [] [] (f+1) [] acc = acc.reverse := rfl

/-! ### Universal properties of the field-line wrapper (claim C5) -/

/-- One outer iteration of `wrapLoop` on a non-empty chunk list, phrased with
`wrapStepPair` and `wrapCur3`. -/
theorem wrapLoopSuccEq (w : Nat) (i1 i2 : List Char) (fuel : Nat)
    (ch0 : List Char) (chrest acc : List (List Char)) :
    wrapLoop w i1 i2 (fuel + 1) (ch0 :: chrest) acc =
      wrapLoop w i1 i2 fuel
        (wrapStepPair (w - (if acc.isEmpty then i1 else i2).length)
          (if !acc.isEmpty && chunkIsWS ch0 then chrest else ch0 :: chrest)).2
        (if (wrapCur3 (w - (if acc.isEmpty then i1 else i2).length)
              (if !acc.isEmpty && chunkIsWS ch0 then chrest else ch0 :: chrest)).isEmpty
         then acc
         else ((if acc.isEmpty then i1 else i2) ++
            (wrapCur3 (w - (if acc.isEmpty then i1 else i2).length)
              (if !acc.isEmpty && chunkIsWS ch0 then chrest else ch0 :: chrest)).flatten)
           :: acc) := rfl

/-- The running length returned by `takeFill` is the initial length plus the
characters moved onto the line. -/
theorem takeFillLen (width : Nat) :
    ∀ (chunks : List (List Char)) (curLen : Nat),
      (takeFill width curLen chunks).2.1 = curLen + sumLen (takeFill width curLen chunks).1 := by
  intro chunks
  induction chunks with
  | nil => intro curLen; simp [takeFill, sumLen]
  | cons ch rest ih =>
    intro curLen
    by_cases hf : curLen + ch.length ≤ width
    · have := ih (curLen + ch.length)
      simp only [takeFill, hf, if_true, sumLen, List.map_cons, List.sum_cons] at this ⊢
      omega
    · simp [takeFill, hf, sumLen]

/-- `takeFill` never exceeds the width it is given. -/
theorem takeFillBound (width : Nat) :
    ∀ (chunks : List (List Char)) (curLen : Nat), curLen ≤ width →
      curLen + sumLen (takeFill width curLen chunks).1 ≤ width := by
  intro chunks
  induction chunks with
  | nil => intro curLen h; simpa [takeFill, sumLen] using h
  | cons ch rest ih =>
    intro curLen h
    by_cases hf : curLen + ch.length ≤ width
    · have := ih (curLen + ch.length) hf
      simp only [takeFill, hf, if_true, sumLen, List.map_cons, List.sum_cons] at this ⊢
      omega
    · simpa [takeFill, hf, sumLen] using h

/-- Any index returned by `rfindHyphenGo` is below the start index plus the
scanned length. -/
theorem rfindHyphenGoBound :
    ∀ (l : List Char) (i : Nat) (best : Option Nat),
      (∀ b, best = some b → b < i) →
      ∀ h, rfindHyphenGo l i best = some h → h < i + l.length := by
  intro l
  induction l with
  | nil =>
    intro i best hb h hh
    have := hb h hh
    simpa using Nat.lt_of_lt_of_le this (Nat.le_refl i)
  | cons c rest ih =>
    intro i best hb h hh
    simp only [rfindHyphenGo] at hh
    have hrec := ih (i + 1) (if c = '-' then some i else best) ?_ h hh
    · simp only [List.length_cons]
      omega
    · intro b hbb
      by_cases hc : c = '-'
      · simp only [hc, if_true, Option.some.injEq] at hbb
        omega
      · simp only [hc, if_false] at hbb
        have := hb b hbb
        omega

/-- `rfindHyphen` returns an index below its bound. -/
theorem rfindHyphenLt (cs : List Char) (bound h : Nat)
    (hh : rfindHyphen cs bound = some h) : h < bound := by
  have h1 := rfindHyphenGoBound (cs.take bound) 0 none (by intro b hb; cases hb) h hh
  have h2 := List.length_take_le bound cs
  omega

/-- The head piece produced by `_handle_long_word` fits in the space it was
given (for positive space). -/
theorem handleLongBound (chunk : List Char) (spaceLeft : Nat) :
    (handleLong chunk spaceLeft).1.length ≤ spaceLeft := by
  unfold handleLong
  dsimp only
  split
  · split
    next hyph heq =>
      split
      next hcond =>
        have h1 := rfindHyphenLt chunk spaceLeft hyph heq
        have h2 := List.length_take_le (hyph + 1) chunk
        omega
      next hcond => exact List.length_take_le _ _
    next heq => exact List.length_take_le _ _
  · exact List.length_take_le _ _

/-- Dropping the last chunk cannot increase the total length. -/
theorem sumLenDropLast : ∀ l : List (List Char), sumLen l.dropLast ≤ sumLen l := by
  intro l
  induction l with
  | nil => simp [sumLen]
  | cons x rest ih =>
    cases rest with
    | nil => simp [sumLen, List.dropLast]
    | cons y t =>
      have hdl : (x :: y :: t).dropLast = x :: (y :: t).dropLast := rfl
      rw [hdl]
      simp only [sumLen, List.map_cons, List.sum_cons] at ih ⊢
      omega

/-- The chunks placed on one line by the fill-plus-long-word step hold at most
`width` characters. -/
theorem wrapStepPairBound (width : Nat) (hw : 1 ≤ width) (chunks1 : List (List Char)) :
    sumLen (wrapStepPair width chunks1).1 ≤ width := by
  unfold wrapStepPair
  dsimp only
  have hA := takeFillBound width chunks1 0 (by omega)
  have hL := takeFillLen width chunks1 0
  split
  next ch rest heq =>
    split
    · -- long-word branch
      rename_i hlong
      rw [show (if width < 1 then 1 else width - (takeFill width 0 chunks1).2.1)
          = width - (takeFill width 0 chunks1).2.1 from if_neg (by omega)]
      have hHL := handleLongBound ch (width - (takeFill width 0 chunks1).2.1)
      simp only [sumLen, List.map_append, List.sum_append, List.map_cons, List.sum_cons,
        List.map_nil, List.sum_nil]
      simp only [sumLen] at hA hL
      omega
    · simp only [sumLen] at hA ⊢
      omega
  next heq =>
    simp only [sumLen] at hA ⊢
    omega

/-- The emitted line content of one `wrapLoop` iteration holds at most `width`
characters. -/
theorem wrapCur3Bound (width : Nat) (hw : 1 ≤ width) (chunks1 : List (List Char)) :
    (wrapCur3 width chunks1).flatten.length ≤ width := by
  have hstep := wrapStepPairBound width hw chunks1
  unfold wrapCur3
  dsimp only
  have hflat : ∀ l : List (List Char), l.flatten.length = sumLen l := by
    intro l
    simp [sumLen, List.length_flatten]
  split
  next lastC heq =>
    split
    · rw [hflat]
      have := sumLenDropLast (wrapStepPair width chunks1).1
      omega
    · rw [hflat]
      exact hstep
  next heq =>
    rw [hflat]
    exact hstep

/-- Universal width bound: at the `print_field` settings (total width 78,
indents shorter than 78), every line `wrapLoop` ever emits is at most 78
characters long, for every input chunk list. -/
theorem wrapLoopWidth :
    ∀ (fuel : Nat) (i1 i2 : List Char), i1.length < 78 → i2.length < 78 →
      ∀ (chunks acc : List (List Char)), (∀ a ∈ acc, a.length ≤ 78) →
      ∀ l ∈ wrapLoop 78 i1 i2 fuel chunks acc, l.length ≤ 78 := by
  intro fuel
  induction fuel with
  | zero =>
    intro i1 i2 h1 h2 chunks acc hacc l hl
    rw [show wrapLoop 78 i1 i2 0 chunks acc = acc.reverse from rfl] at hl
    exact hacc l (List.mem_reverse.mp hl)
  | succ fuel ih =>
    intro i1 i2 h1 h2 chunks acc hacc l hl
    cases chunks with
    | nil =>
      rw [show wrapLoop 78 i1 i2 (fuel + 1) [] acc = acc.reverse from rfl] at hl
      exact hacc l (List.mem_reverse.mp hl)
    | cons ch0 chrest =>
      rw [wrapLoopSuccEq] at hl
      refine ih i1 i2 h1 h2 _ _ ?_ l hl
      intro a ha
      by_cases hc : (wrapCur3 (78 - (if acc.isEmpty then i1 else i2).length)
          (if !acc.isEmpty && chunkIsWS ch0 then chrest else ch0 :: chrest)).isEmpty = true
      · rw [if_pos hc] at ha
        exact hacc a ha
      · rw [if_neg hc] at ha
        rcases List.mem_cons.mp ha with hEq | hMem
        · subst hEq
          have hIND : (if acc.isEmpty then i1 else i2).length < 78 := by
            by_cases hae : acc.isEmpty = true
            · simpa [hae] using h1
            · simpa [hae] using h2
          have hB := wrapCur3Bound (78 - (if acc.isEmpty then i1 else i2).length)
            (by omega)
            (if !acc.isEmpty && chunkIsWS ch0 then chrest else ch0 :: chrest)
          simp only [List.length_append]
          omega
        · exact hacc a hMem

/-- Universal indent property: whenever `wrapLoop` returns a non-empty line
list, the first line starts with the initial indent and every later line with
the subsequent indent, for every input chunk list. -/
theorem wrapLoopIndent :
    ∀ (fuel : Nat) (i1 i2 : List Char) (chunks acc : List (List Char)),
      (∀ a ∈ acc.dropLast, i2.isPrefixOf a = true) →
      (∀ a0, acc.getLast? = some a0 → i1.isPrefixOf a0 = true) →
      ∀ l0 rest, wrapLoop 78 i1 i2 fuel chunks acc = l0 :: rest →
        i1.isPrefixOf l0 = true ∧ ∀ l ∈ rest, i2.isPrefixOf l = true := by
  intro fuel
  induction fuel with
  | zero =>
    intro i1 i2 chunks acc hQ1 hQ2 l0 rest heq
    rw [show wrapLoop 78 i1 i2 0 chunks acc = acc.reverse from rfl] at heq
    have hacc : acc = rest.reverse ++ [l0] := by
      rw [← List.reverse_reverse acc, heq]
      simp
    constructor
    · exact hQ2 l0 (by rw [hacc, List.getLast?_concat])
    · intro l hl
      refine hQ1 l ?_
      rw [hacc, List.dropLast_concat]
      exact List.mem_reverse.mpr hl
  | succ fuel ih =>
    intro i1 i2 chunks acc hQ1 hQ2 l0 rest heq
    cases chunks with
    | nil =>
      rw [show wrapLoop 78 i1 i2 (fuel + 1) [] acc = acc.reverse from rfl] at heq
      have hacc : acc = rest.reverse ++ [l0] := by
        rw [← List.reverse_reverse acc, heq]
        simp
      constructor
      · exact hQ2 l0 (by rw [hacc, List.getLast?_concat])
      · intro l hl
        refine hQ1 l ?_
        rw [hacc, List.dropLast_concat]
        exact List.mem_reverse.mpr hl
    | cons ch0 chrest =>
      by_cases hc : (wrapCur3 (78 - (if acc.isEmpty then i1 else i2).length)
          (if !acc.isEmpty && chunkIsWS ch0 then chrest else ch0 :: chrest)).isEmpty = true
      · rw [wrapLoopSuccEq, if_pos hc] at heq
        exact ih i1 i2 _ acc hQ1 hQ2 l0 rest heq
      · rw [wrapLoopSuccEq, if_neg hc] at heq
        refine ih i1 i2 _ _ ?_ ?_ l0 rest heq
        · intro a ha
          cases acc with
          | nil => simp [List.dropLast] at ha
          | cons y t =>
            have hdl : ∀ (x y : List Char) (t : List (List Char)),
                (x :: y :: t).dropLast = x :: (y :: t).dropLast := fun _ _ _ => rfl
            rw [hdl] at ha
            rcases List.mem_cons.mp ha with hEq | hMem
            · subst hEq
              have hind : (if (y :: t : List (List Char)).isEmpty then i1 else i2) = i2 := by
                simp
              rw [hind]
              exact List.isPrefixOf_iff_prefix.mpr (List.prefix_append _ _)
            · exact hQ1 a hMem
        · intro a0 ha0
          cases acc with
          | nil =>
            have hg : ∀ x : List Char, ([x] : List (List Char)).getLast? = some x :=
              fun _ => rfl
            rw [hg] at ha0
            have ha2 : a0 = (if ([] : List (List Char)).isEmpty then i1 else i2) ++
                (wrapCur3 (78 - (if ([] : List (List Char)).isEmpty then i1 else i2).length)
                  (if !(List.isEmpty ([] : List (List Char))) && chunkIsWS ch0 then chrest
                   else ch0 :: chrest)).flatten := (Option.some.inj ha0).symm
            rw [ha2]
            have hind : (if ([] : List (List Char)).isEmpty then i1 else i2) = i1 := by
              simp
            rw [hind]
            exact List.isPrefixOf_iff_prefix.mpr (List.prefix_append _ _)
          | cons y t =>
            have hg : ∀ (x y : List Char) (t : List (List Char)),
                (x :: y :: t).getLast? = (y :: t).getLast? := fun _ _ _ => rfl
            rw [hg] at ha0
            exact hQ2 a0 ha0

/-- Step equation of `wordChunkGo` on a non-empty input. -/
theorem wordChunkGoCons (prevRev accRev : List Char) (c : Char) (rest : List Char) :
    wordChunkGo prevRev accRev (c :: rest) =
      if pyWS c then (accRev.reverse, c :: rest)
      else if c = '-' && hyphBehind ('-' :: (accRev ++ prevRev)) && hyphAhead rest then
        (('-' :: accRev).reverse, rest)
      else if (match accRev with | a :: _ => isEmdPre a | [] => false) &&
          emdAhead (c :: rest) then
        (accRev.reverse, c :: rest)
      else wordChunkGo prevRev (c :: accRev) rest := rfl

/-- Step equation of `chunksGo` on a non-empty input. -/
theorem chunksGoCons (fuel : Nat) (prevRev : List Char) (c : Char) (rest : List Char) :
    chunksGo (fuel + 1) prevRev (c :: rest) =
      if pyWS c then
        (c :: rest.takeWhile pyWS) ::
          chunksGo fuel ((c :: rest.takeWhile pyWS).reverse ++ prevRev)
            (rest.dropWhile pyWS)
      else if c = '-' && (match prevRev with | p :: _ => isEmdPre p | [] => false) &&
          emdAhead (c :: rest) then
        (c :: rest.takeWhile (fun a => a = '-')) ::
          chunksGo fuel ((c :: rest.takeWhile (fun a => a = '-')).reverse ++ prevRev)
            (rest.dropWhile (fun a => a = '-'))
      else
        (wordChunkGo prevRev [c] rest).1 ::
          chunksGo fuel ((wordChunkGo prevRev [c] rest).1.reverse ++ prevRev)
            (wordChunkGo prevRev [c] rest).2 := rfl

/-- A word chunk and the remaining input concatenate back to the consumed
text: the chunker drops nothing. -/
theorem wordChunkGoAppend (prevRev : List Char) :
    ∀ (input accRev : List Char),
      (wordChunkGo prevRev accRev input).1 ++ (wordChunkGo prevRev accRev input).2 =
        accRev.reverse ++ input := by
  intro input
  induction input with
  | nil =>
    intro accRev
    simp [wordChunkGo]
  | cons c rest ih =>
    intro accRev
    rw [wordChunkGoCons]
    split
    · rfl
    · split
      · next h2 =>
        have hc : c = '-' := by
          simp only [Bool.and_eq_true, decide_eq_true_eq] at h2
          exact h2.1.1
        subst hc
        simp
      · split
        · rfl
        · rw [ih (c :: accRev)]
          simp

/-- A word chunk is at least as long as the accumulator it started from. -/
theorem wordChunkGoLenGe (prevRev : List Char) :
    ∀ (input accRev : List Char),
      accRev.length ≤ (wordChunkGo prevRev accRev input).1.length := by
  intro input
  induction input with
  | nil =>
    intro accRev
    simp [wordChunkGo]
  | cons c rest ih =>
    intro accRev
    rw [wordChunkGoCons]
    split
    · simp
    · split
      · simp
      · split
        · simp
        · have := ih (c :: accRev)
          simp only [List.length_cons] at this
          omega

/-- A word chunk grown from a whitespace-free accumulator stays
whitespace-free: `wordChunkGo` stops before any whitespace character. -/
theorem wordChunkGoNonWS (prevRev : List Char) :
    ∀ (input accRev : List Char),
      accRev.all (fun c => !pyWS c) = true →
      (wordChunkGo prevRev accRev input).1.all (fun c => !pyWS c) = true := by
  intro input
  induction input with
  | nil =>
    intro accRev hAll
    simpa [wordChunkGo] using hAll
  | cons c rest ih =>
    intro accRev hAll
    rw [wordChunkGoCons]
    split
    · simpa using hAll
    · next h1 =>
      split
      · simp only [List.all_reverse, List.all_cons, Bool.and_eq_true]
        refine ⟨by decide, ?_⟩
        simpa using hAll
      · split
        · simpa using hAll
        · refine ih (c :: accRev) ?_
          simp only [List.all_cons, Bool.and_eq_true]
          refine ⟨?_, hAll⟩
          simp only [Bool.not_eq_true'] at h1 ⊢
          exact Bool.not_eq_true _ ▸ (by simpa using h1)

/-- The chunks tile the text exactly: concatenating them restores the munged
input, so chunk boundaries are the only candidate break points. -/
theorem chunksGoFlatten :
    ∀ (fuel : Nat) (prevRev text : List Char), text.length < fuel →
      (chunksGo fuel prevRev text).flatten = text := by
  intro fuel
  induction fuel with
  | zero =>
    intro _ text h
    exact absurd h (Nat.not_lt_zero _)
  | succ fuel ih =>
    intro prevRev text hlen
    cases text with
    | nil => rfl
    | cons c rest =>
      rw [chunksGoCons]
      simp only [List.length_cons] at hlen
      split
      · rw [List.flatten_cons,
          ih _ _ (by have := lengthDropWhileLe pyWS rest; omega)]
        simp [List.takeWhile_append_dropWhile]
      · split
        · rw [List.flatten_cons,
            ih _ _ (by have := lengthDropWhileLe (fun a => a = '-') rest; omega)]
          simp [List.takeWhile_append_dropWhile]
        · have happ := wordChunkGoAppend prevRev rest [c]
          have hge := wordChunkGoLenGe prevRev rest [c]
          simp only [List.reverse_cons, List.reverse_nil, List.nil_append,
            List.singleton_append] at happ
          have hlen2 : (wordChunkGo prevRev [c] rest).2.length < fuel := by
            have := congrArg List.length happ
            simp only [List.length_append, List.length_cons] at this
            simp only [List.length_cons, List.length_nil] at hge
            omega
          rw [List.flatten_cons, ih _ _ hlen2, happ]

/-- Every chunk is non-empty and either pure whitespace or whitespace-free:
the candidate break points of `wordsep_re` fall at whitespace runs (and at the
hyphen/em-dash cuts inside whitespace-free chunks). -/
theorem chunksGoClass :
    ∀ (fuel : Nat) (prevRev text : List Char),
      ∀ ch ∈ chunksGo fuel prevRev text,
        ch ≠ [] ∧ (ch.all pyWS = true ∨ ch.all (fun c => !pyWS c) = true) := by
  intro fuel
  induction fuel with
  | zero =>
    intro _ text ch hch
    simp [chunksGo] at hch
  | succ fuel ih =>
    intro prevRev text ch hch
    cases text with
    | nil => simp [chunksGo] at hch
    | cons c rest =>
      rw [chunksGoCons] at hch
      split at hch
      · next h1 =>
        rcases List.mem_cons.mp hch with hEq | hMem
        · subst hEq
          refine ⟨List.cons_ne_nil _ _, Or.inl ?_⟩
          simp only [List.all_cons, Bool.and_eq_true]
          refine ⟨h1, ?_⟩
          rw [List.all_eq_true]
          intro x hx
          exact List.mem_takeWhile_imp hx
        · exact ih _ _ ch hMem
      · next h1 =>
        split at hch
        · next h2 =>
          rcases List.mem_cons.mp hch with hEq | hMem
          · subst hEq
            have hc : c = '-' := by
              simp only [Bool.and_eq_true, decide_eq_true_eq] at h2
              exact h2.1.1
            refine ⟨List.cons_ne_nil _ _, Or.inr ?_⟩
            simp only [List.all_cons, Bool.and_eq_true]
            constructor
            · rw [hc]; decide
            · rw [List.all_eq_true]
              intro x hx
              have := List.mem_takeWhile_imp hx
              simp only [decide_eq_true_eq] at this
              rw [this]; decide
          · exact ih _ _ ch hMem
        · next h2 =>
          rcases List.mem_cons.mp hch with hEq | hMem
          · subst hEq
            have hge := wordChunkGoLenGe prevRev rest [c]
            simp only [List.length_cons, List.length_nil] at hge
            refine ⟨?_, Or.inr ?_⟩
            · intro hnil
              rw [hnil] at hge
              simp at hge
            · refine wordChunkGoNonWS prevRev rest [c] ?_
              simp only [List.all_cons, List.all_nil, Bool.and_true]
              simp only [Bool.not_eq_true'] at h1 ⊢
              simpa using h1
          · exact ih _ _ ch hMem

/-- `wrap78` unfolded to its `wrapLoop` core. -/
theorem wrap78Eq (s : String) :
    wrap78 s =
      (wrapLoop 78 "  ".data "    ".data
        (2 * (munge s.data).length +
          (chunksGo ((munge s.data).length + 1) [] (munge s.data)).length + 8)
        (chunksGo ((munge s.data).length + 1) [] (munge s.data)) []).map
        (fun l => (⟨l⟩ : String)) := rfl

/-- C5 (amended): each field is rendered by appending the textwrap-78 wrapping
of the line `"<key> = \x7b<value>\x7d,"` to the output; universally, every
emitted line is at most 78 characters long, the first emitted line starts with
the 2-space initial indent and every later line with the 4-space subsequent
indent, and the line text is tiled into chunks that are each either pure
whitespace or whitespace-free (so the preferred break points fall at
whitespace runs); but a chunk longer than the remaining width IS broken
mid-word (`break_long_words=True`): a 100-character DOI value is split
mid-word with the first line filled to exactly 78 characters. -/
theorem c5_wrap_amended (key value : String) (out : List String) :
    (print_field out key value =
        out ++ wrap78 (key ++ " = \x7b" ++ value ++ "\x7d,")) ∧
    (∀ l ∈ wrap78 (key ++ " = \x7b" ++ value ++ "\x7d,"), l.length ≤ 78) ∧
    (∀ l0 rest, wrap78 (key ++ " = \x7b" ++ value ++ "\x7d,") = l0 :: rest →
        "  ".data.isPrefixOf l0.data = true ∧
        ∀ l ∈ rest, "    ".data.isPrefixOf l.data = true) ∧
    ((chunksGo ((munge (key ++ " = \x7b" ++ value ++ "\x7d,").data).length + 1) []
          (munge (key ++ " = \x7b" ++ value ++ "\x7d,").data)).flatten =
        munge (key ++ " = \x7b" ++ value ++ "\x7d,").data ∧
      ∀ ch ∈ chunksGo ((munge (key ++ " = \x7b" ++ value ++ "\x7d,").data).length + 1) []
          (munge (key ++ " = \x7b" ++ value ++ "\x7d,").data),
        ch ≠ [] ∧ (ch.all pyWS = true ∨ ch.all (fun c => !pyWS c) = true)) ∧
    (print_field [] "doi" (⟨List.replicate 100 'x'⟩ : String) =
        [(⟨"  doi = \x7b".data ++ List.replicate 69 'x'⟩ : String),
         (⟨"    ".data ++ List.replicate 31 'x' ++ "\x7d,".data⟩ : String)] ∧
      (⟨"  doi = \x7b".data ++ List.replicate 69 'x'⟩ : String).length = 78) := by
  refine ⟨rfl, ?_, ?_, ⟨chunksGoFlatten _ [] _ (Nat.lt_succ_self _),
    fun ch hch => chunksGoClass _ [] _ ch hch⟩, by decide, by decide⟩
  · intro l hl
    rw [wrap78Eq] at hl
    simp only [List.mem_map] at hl
    obtain ⟨lc, hmem, hEq⟩ := hl
    rw [← hEq]
    show lc.length ≤ 78
    exact wrapLoopWidth _ _ _ (by decide) (by decide) _ _ (by simp) lc hmem
  · intro l0 rest hEq
    rw [wrap78Eq] at hEq
    cases hL : wrapLoop 78 "  ".data "    ".data
        (2 * (munge (key ++ " = \x7b" ++ value ++ "\x7d,").data).length +
          (chunksGo ((munge (key ++ " = \x7b" ++ value ++ "\x7d,").data).length + 1) []
            (munge (key ++ " = \x7b" ++ value ++ "\x7d,").data)).length + 8)
        (chunksGo ((munge (key ++ " = \x7b" ++ value ++ "\x7d,").data).length + 1) []
          (munge (key ++ " = \x7b" ++ value ++ "\x7d,").data)) [] with
    | nil =>
      rw [hL] at hEq
      simp at hEq
    | cons lc0 lrest =>
      rw [hL] at hEq
      simp only [List.map_cons, List.cons.injEq] at hEq
      have hInd := wrapLoopIndent _ "  ".data "    ".data _ []
        (by simp) (by intro a0 h0; simp at h0) lc0 lrest hL
      constructor
      · rw [← hEq.1]
        exact hInd.1
      · intro l hl
        rw [← hEq.2] at hl
        simp only [List.mem_map] at hl
        obtain ⟨lc, hm, he⟩ := hl
        rw [← he]
        exact hInd.2 lc hm


theorem c5_wrap_amended_witness :
    "  ".data.isPrefixOf
        (⟨"  doi = \x7b".data ++ List.replicate 69 'x'⟩ : String).data = true ∧
      ∀ l ∈ [(⟨"    ".data ++ List.replicate 31 'x' ++ "\x7d,".data⟩ : String)],
        "    ".data.isPrefixOf l.data = true :=
  (c5_wrap_amended "doi" (⟨List.replicate 100 'x'⟩ : String) []).2.2.1
    (⟨"  doi = \x7b".data ++ List.replicate 69 'x'⟩ : String)
    [(⟨"    ".data ++ List.replicate 31 'x' ++ "\x7d,".data⟩ : String)]
    (by decide)
